import Mathlib

/-!
Verification of the bitcoin-canister visualization scripts.

This file gives a shallow embedding, in Lean 4, of the Python code in
`src/unstable_blocks.py`, `src/visualize_blockchain.py` and
`src/visualize_blockchain_graphviz.py`, and proves or refutes the frozen
claims about it.  Machine integers are modelled as `Nat`/`Int` (Python
integers are unbounded), the float arithmetic of the color normalization is
modelled over `ℚ` (the claims only exercise values that are exact in both),
and regular-expression scanning is modelled by explicit recursive scanners
that reproduce the left-to-right, advance-on-failure semantics of
`re.findall` / `re.finditer`.
-/

/-! ## Blob decoder: `parse_blob` from src/unstable_blocks.py

Python source:
  def parse_blob(blob_str):
      matches = re.findall(r'\\([0-9a-fA-F]{2})', blob_str)
      return ''.join(matches)

The regex matches a backslash followed by exactly two hex digits and captures
the two digits as written (no case folding).  `re.findall` scans left to
right: on a match it continues after the matched text, otherwise it advances
one character.
-/

/-- Character class `[0-9a-fA-F]` of the regex. -/
def isHexDig (c : Char) : Bool :=
  c.isDigit || ('a' ≤ c && c ≤ 'f') || ('A' ≤ c && c ≤ 'F')

/-- Scanner for `re.findall` with pattern `\\([0-9a-fA-F]{2})`, already
joined: each match contributes its two captured characters verbatim.  On a
failed match attempt the scan position advances by one character. -/
def parseBlobAux : List Char → List Char
  | [] => []
  | '\\' :: c1 :: c2 :: rest =>
    if isHexDig c1 && isHexDig c2 then c1 :: c2 :: parseBlobAux rest
    else parseBlobAux (c1 :: c2 :: rest)
  | _ :: rest => parseBlobAux rest

/-- Embedding of `parse_blob`: convert a blob literal with escaped bytes to
the concatenation of the captured hex digit pairs. -/
def parse_blob (blob_str : String) : String :=
  ⟨parseBlobAux blob_str.data⟩

/-- Skipping a character that is not a backslash leaves the output
unchanged: non-matching characters are ignored by the scan. -/
theorem parseBlobAux_skip (c : Char) (cs : List Char) (h : c ≠ '\\') :
    parseBlobAux (c :: cs) = parseBlobAux cs := by
  rw [parseBlobAux.eq_def]
  split
  · next heq => simp at heq
  · next heq => injection heq with h1 _; exact absurd h1 h
  · next heq => injection heq with _ h2; rw [h2]

/-- Well-formed decoder output: a sequence of hex-digit pairs. -/
inductive HexPairs : List Char → Prop
  | nil : HexPairs []
  | cons2 (a b : Char) (l : List Char) :
      isHexDig a = true → isHexDig b = true → HexPairs l → HexPairs (a :: b :: l)

theorem parseBlobAux_hexPairs (s : List Char) : HexPairs (parseBlobAux s) := by
  induction s using parseBlobAux.induct with
  | case1 => exact HexPairs.nil
  | case2 c1 c2 rest hhex ih =>
    have h12 : isHexDig c1 = true ∧ isHexDig c2 = true := by simpa using hhex
    rw [parseBlobAux, if_pos hhex]
    exact HexPairs.cons2 c1 c2 _ h12.1 h12.2 ih
  | case3 c1 c2 rest hhex ih =>
    rw [parseBlobAux, if_neg hhex]; exact ih
  | case4 c rest hshape ih =>
    rw [parseBlobAux.eq_def]
    split
    · next heq => simp at heq
    · next heq =>
      injection heq with h1 h2
      exact (hshape _ _ _ h1 h2).elim
    · next heq =>
      injection heq with _ h2
      exact h2 ▸ ih

theorem hexPairs_even {l : List Char} (h : HexPairs l) : Even l.length := by
  induction h with
  | nil => exact ⟨0, rfl⟩
  | cons2 a b l _ _ _ ih =>
    rcases ih with ⟨k, hk⟩
    refine ⟨k + 1, ?_⟩
    simp only [List.length_cons, hk]
    ring

/-- Re-encoding of a hex string into escaped-byte form, per the spec of the
round-trip property: a backslash is written before each two-hex-digit pair. -/
def escapeHexChars : List Char → List Char
  | a :: b :: rest => '\\' :: a :: b :: escapeHexChars rest
  | r => r

/-- String-level re-encoding of a decoded hex string into a blob literal. -/
def escape_blob (hex : String) : String :=
  ⟨escapeHexChars hex.data⟩

theorem parseBlobAux_escape {l : List Char} (h : HexPairs l) :
    parseBlobAux (escapeHexChars l) = l := by
  induction h with
  | nil => rfl
  | cons2 a b l ha hb _ ih =>
    rw [escapeHexChars, parseBlobAux, if_pos (by simp [ha, hb])]
    rw [ih]

/-- Pairs of characters flattened into a string, the reference shape of an
input consisting only of escaped-byte tokens. -/
def flattenPairs (ps : List (Char × Char)) : List Char :=
  ps.foldr (fun p acc => p.1 :: p.2 :: acc) []

/-- Escaped-byte literal built from a list of two-character tokens. -/
def escapePairs (ps : List (Char × Char)) : List Char :=
  ps.foldr (fun p acc => '\\' :: p.1 :: p.2 :: acc) []

theorem parseBlobAux_escapePairs (ps : List (Char × Char))
    (h : ∀ p ∈ ps, isHexDig p.1 = true ∧ isHexDig p.2 = true) :
    parseBlobAux (escapePairs ps) = flattenPairs ps := by
  induction ps with
  | nil => rfl
  | cons p ps ih =>
    have hp := h p (List.mem_cons_self p ps)
    have hrest := ih fun q hq => h q (List.mem_cons_of_mem p hq)
    show parseBlobAux ('\\' :: p.1 :: p.2 :: escapePairs ps) = p.1 :: p.2 :: flattenPairs ps
    rw [parseBlobAux, if_pos (by simp [hp.1, hp.2]), hrest]

/-- C2 counterexample: the decoder does not lowercase.  The literal with the
single uppercase escape token backslash-A-B decodes to the uppercase string
AB, not to the lowercase canonical form ab, refuting the claim that the
output is always lowercase hex. -/
theorem parse_blob_uppercase_counterexample :
    parse_blob "\\AB" = "AB" ∧ ("AB" : String) ≠ "ab" := by
  constructor
  · rfl
  · decide

/-- C2 (amended): for every input literal consisting of backslash-escaped
two-hex-digit tokens, the decoder returns the concatenation of the hex
digit pairs in byte order with the character case preserved verbatim; the
output is lowercase only when the escapes in the input are lowercase. -/
theorem parse_blob_concats_tokens_verbatim (ps : List (Char × Char))
    (h : ∀ p ∈ ps, isHexDig p.1 = true ∧ isHexDig p.2 = true) :
    parse_blob ⟨escapePairs ps⟩ = ⟨flattenPairs ps⟩ := by
  show String.mk (parseBlobAux (escapePairs ps)) = String.mk (flattenPairs ps)
  rw [parseBlobAux_escapePairs ps h]

/-- C2 witness: the amended theorem applied to the concrete token list
backslash-A-B backslash-c-d, whose decoding is ABcd. -/
theorem parse_blob_concats_tokens_verbatim_witness :
    parse_blob "\\AB\\cd" = "ABcd" := by
  have h := parse_blob_concats_tokens_verbatim [('A', 'B'), ('c', 'd')] (by decide)
  exact h

/-- C8: the blob decoder is total by construction (it is a Lean function on
all of String); the empty literal yields the empty string, any character
other than a backslash at the scan position is ignored, and a string with
no backslash at all decodes to the empty string. -/
theorem parse_blob_total_ignores_nonmatching :
    parse_blob "" = ""
    ∧ (∀ (c : Char) (cs : List Char), c ≠ '\\' →
        parseBlobAux (c :: cs) = parseBlobAux cs)
    ∧ (∀ s : String, (∀ c ∈ s.data, c ≠ '\\') → parse_blob s = "") := by
  refine ⟨rfl, parseBlobAux_skip, ?_⟩
  intro s hs
  show String.mk (parseBlobAux s.data) = String.mk []
  have : ∀ l : List Char, (∀ c ∈ l, c ≠ '\\') → parseBlobAux l = [] := by
    intro l
    induction l with
    | nil => intro _; rfl
    | cons c cs ih =>
      intro hl
      rw [parseBlobAux_skip c cs (hl c (List.mem_cons_self c cs))]
      exact ih fun x hx => hl x (List.mem_cons_of_mem c hx)
  rw [this s.data hs]

/-- C8 witness: the theorem applied at concrete inputs, discharging each
hypothesis there. -/
theorem parse_blob_total_ignores_nonmatching_witness :
    parseBlobAux ['x', '\\', 'a', 'b'] = parseBlobAux ['\\', 'a', 'b']
    ∧ parse_blob "xyz" = "" := by
  refine ⟨parse_blob_total_ignores_nonmatching.2.1 'x' ['\\', 'a', 'b'] (by decide), ?_⟩
  exact parse_blob_total_ignores_nonmatching.2.2 "xyz" (by decide)

/-- C9: decoding round-trips on the string representation.  For every input
literal, re-encoding the decoded hex string back into escaped-byte form and
decoding again yields the same hex string. -/
theorem parse_blob_roundtrip (s : String) :
    parse_blob (escape_blob (parse_blob s)) = parse_blob s := by
  show String.mk (parseBlobAux (escapeHexChars (parseBlobAux s.data))) =
    String.mk (parseBlobAux s.data)
  rw [parseBlobAux_escape (parseBlobAux_hexPairs s.data)]

/-- C10: the decoder output always has even length: each matched token
contributes exactly two hex characters, so the output encodes a whole
number of bytes. -/
theorem parse_blob_even_length (s : String) : Even (parse_blob s).length := by
  show Even (parseBlobAux s.data).length
  exact hexPairs_even (parseBlobAux_hexPairs s.data)

/-! ## Color normalization: `difficulty_to_color` from
src/visualize_blockchain_graphviz.py

Python source:
  def difficulty_to_color(difficulty, min_difficulty, max_difficulty):
      if max_difficulty == min_difficulty:
          ratio = 0.0
      else:
          ratio = (difficulty - min_difficulty) / (max_difficulty - min_difficulty)
      r = int(232 + ratio * (0 - 232))
      g = int(240 + ratio * (60 - 240))
      b = int(254 + ratio * (143 - 254))
      return f"#\x7br:02x\x7d\x7bg:02x\x7d\x7bb:02x\x7d"

Difficulties are Python integers; the division produces a float, modelled
here over ℚ (the claims only exercise ratios 0 and 1, which are exact in
IEEE floats as well), and `int` truncates toward zero. -/

/-- Truncation toward zero of a rational, the behavior of Python `int()` on
an exact value. -/
def ratTrunc (q : ℚ) : ℤ := q.num.tdiv (q.den : ℤ)

/-- The min-max normalized ratio, defined as 0 when max equals min. -/
def normalizeRatio (difficulty min_difficulty max_difficulty : ℤ) : ℚ :=
  if max_difficulty = min_difficulty then 0
  else ((difficulty : ℚ) - (min_difficulty : ℚ)) /
    ((max_difficulty : ℚ) - (min_difficulty : ℚ))

/-- Two-digit lowercase hex rendering of an integer channel value, the
Python format spec 02x.  Negative values render with a leading minus sign
and are never produced for ratios in the unit interval. -/
def toHex2 (n : ℤ) : String :=
  if n < 0 then "-" ++ ⟨Nat.toDigits 16 n.natAbs⟩
  else (if n.natAbs < 16 then "0" else "") ++ ⟨Nat.toDigits 16 n.toNat⟩

/-- Embedding of `difficulty_to_color`: interpolate each RGB channel
linearly between light blue (232, 240, 254) and dark blue (0, 60, 143),
truncate to an integer and format as a 6-hex-digit color code. -/
def difficulty_to_color (difficulty min_difficulty max_difficulty : ℤ) : String :=
  let ratio := normalizeRatio difficulty min_difficulty max_difficulty
  let r := ratTrunc (232 + ratio * (0 - 232))
  let g := ratTrunc (240 + ratio * (60 - 240))
  let b := ratTrunc (254 + ratio * (143 - 254))
  "#" ++ toHex2 r ++ toHex2 g ++ toHex2 b

theorem normalizeRatio_self (d : ℤ) : normalizeRatio d d d = 0 := if_pos rfl

/-- C6: when min equals max the normalized ratio is exactly 0 for every
difficulty value, and the fill color is exactly the low endpoint light blue
(232, 240, 254), hex code e8f0fe. -/
theorem difficulty_to_color_degenerate (d : ℤ) :
    normalizeRatio d d d = 0 ∧ difficulty_to_color d d d = "#e8f0fe" := by
  refine ⟨normalizeRatio_self d, ?_⟩
  show (let ratio := normalizeRatio d d d
    let r := ratTrunc (232 + ratio * (0 - 232))
    let g := ratTrunc (240 + ratio * (60 - 240))
    let b := ratTrunc (254 + ratio * (143 - 254))
    "#" ++ toHex2 r ++ toHex2 g ++ toHex2 b) = "#e8f0fe"
  rw [normalizeRatio_self d]
  have hr : ratTrunc (232 + (0 : ℚ) * (0 - 232)) = 232 := by norm_num [ratTrunc]
  have hg : ratTrunc (240 + (0 : ℚ) * (60 - 240)) = 240 := by norm_num [ratTrunc]
  have hb : ratTrunc (254 + (0 : ℚ) * (143 - 254)) = 254 := by norm_num [ratTrunc]
  simp only [hr, hg, hb]
  decide

/-- C7: with a non-degenerate range, normalizing the minimum gives exactly
0 and normalizing the maximum gives exactly 1. -/
theorem normalizeRatio_endpoints (mn mx : ℤ) (h : mx ≠ mn) :
    normalizeRatio mn mn mx = 0 ∧ normalizeRatio mx mn mx = 1 := by
  constructor
  · rw [normalizeRatio, if_neg h]
    simp
  · rw [normalizeRatio, if_neg h]
    have hne : (mx : ℚ) - (mn : ℚ) ≠ 0 := by
      intro hc
      exact h (by exact_mod_cast sub_eq_zero.mp hc)
    exact div_self hne

/-- C7 witness: the endpoint theorem applied at the concrete range 0 to 1. -/
theorem normalizeRatio_endpoints_witness :
    normalizeRatio 0 0 1 = 0 ∧ normalizeRatio 1 0 1 = 1 :=
  normalizeRatio_endpoints 0 1 (by decide)

/-! ## Block records and the hash-to-block dictionary

`parse_vec_block_data` produces dictionaries with integer fields `height`,
`difficulty`, `no_difficulty_counter` and hex-string fields
`prev_block_hash`, `block_hash`, `children`.  Both visualization scripts
index the records with the dict comprehension

  hash_to_block = \x7bb["block_hash"]: b for b in blocks\x7d

which inserts in iteration order, later insertions overwriting earlier
ones.  The scripts only ever look keys up (membership tests), so the dict
is modelled by its lookup function. -/

structure BlockRecord where
  height : ℕ
  difficulty : ℕ
  no_difficulty_counter : ℕ
  prev_block_hash : String
  block_hash : String
  children : List String
deriving DecidableEq, Repr

/-- Embedding of the dict comprehension: fold the records in iteration
order, each insertion overwriting any previous binding of the same key. -/
def hashToBlock (blocks : List BlockRecord) : String → Option BlockRecord :=
  blocks.foldl (fun m b => fun k => if k = b.block_hash then some b else m k)
    (fun _ => none)

/-- Membership test `k in hash_to_block`. -/
def containsKey (m : String → Option BlockRecord) (k : String) : Bool :=
  (m k).isSome

theorem hashToBlock_lookup (blocks : List BlockRecord) (k : String) :
    hashToBlock blocks k = blocks.reverse.find? (fun b => b.block_hash == k) := by
  induction blocks using List.reverseRecOn with
  | nil => rfl
  | append_singleton l b ih =>
    rw [hashToBlock, List.foldl_append]
    simp only [List.foldl_cons, List.foldl_nil]
    rw [show (List.foldl (fun m b => fun k => if k = b.block_hash then some b else m k)
      (fun _ => none) l) = hashToBlock l from rfl]
    by_cases hk : k = b.block_hash
    · simp [hk, List.reverse_append]
    · simp only [if_neg hk, List.reverse_append, List.reverse_cons, List.reverse_nil,
        List.nil_append, List.singleton_append, List.find?_cons]
      have : (b.block_hash == k) = false := by
        simp [beq_eq_false_iff_ne]
        intro hc
        exact hk hc.symm
      rw [this, ih]

theorem containsKey_hashToBlock (blocks : List BlockRecord) (k : String) :
    containsKey (hashToBlock blocks) k = true ↔ ∃ b ∈ blocks, b.block_hash = k := by
  rw [containsKey, hashToBlock_lookup]
  rw [Option.isSome_iff_exists]
  constructor
  · rintro ⟨b, hb⟩
    have := List.find?_some hb
    have hmem := List.mem_reverse.mp (List.mem_of_find?_eq_some hb)
    exact ⟨b, hmem, by simpa using this⟩
  · rintro ⟨b, hmem, hk⟩
    have : blocks.reverse.find? (fun b => b.block_hash == k) |>.isSome := by
      rw [List.find?_isSome]
      exact ⟨b, List.mem_reverse.mpr hmem, by simp [hk]⟩
    exact Option.isSome_iff_exists.mp this

/-- C5: the assembled hash-to-node mapping resolves every key to the last
record with that block hash in iteration (decode) order: duplicate hashes
are overwritten, last wins. -/
theorem hashToBlock_last_wins (blocks : List BlockRecord) (k : String) :
    hashToBlock blocks k = blocks.reverse.find? (fun b => b.block_hash == k) :=
  hashToBlock_lookup blocks k

/-! ## DAG assembly: `build_graph` from src/visualize_blockchain.py

Python source:
  def build_graph(blocks):
      G = nx.DiGraph()
      hash_to_block = \x7bb["block_hash"]: b for b in blocks\x7d
      for block in blocks:
          label = ...
          G.add_node(block["block_hash"], label=label)
      for block in blocks:
          for child_hash in block["children"]:
              if child_hash in hash_to_block:
                  G.add_edge(block["block_hash"], child_hash)
      return G

A networkx DiGraph is a simple directed graph: `add_node` on an existing
node merges attributes, `add_edge` inserts missing endpoints as attribute-
free nodes and is a no-op on an existing edge. -/

/-- First six characters of a hex hash, Python slice `hash_hex[:6]`. -/
def short_hash (hash_hex : String) : String :=
  hash_hex.take 6

structure NxDiGraph where
  nodes : List (String × String)
  edges : List (String × String)
deriving DecidableEq, Repr

/-- networkx `G.add_node(id, label=label)`: merge the label into an
existing node or append a fresh one. -/
def NxDiGraph.add_node (g : NxDiGraph) (id label : String) : NxDiGraph :=
  if g.nodes.any (fun p => p.1 == id) then
    { g with nodes := g.nodes.map (fun p => if p.1 == id then (id, label) else p) }
  else
    { g with nodes := g.nodes ++ [(id, label)] }

/-- Endpoint insertion performed implicitly by networkx `add_edge`. -/
def NxDiGraph.ensure_node (g : NxDiGraph) (id : String) : NxDiGraph :=
  if g.nodes.any (fun p => p.1 == id) then g
  else { g with nodes := g.nodes ++ [(id, "")] }

/-- networkx `G.add_edge(u, v)`: insert missing endpoints, then insert the
edge unless it is already present. -/
def NxDiGraph.add_edge (g : NxDiGraph) (u v : String) : NxDiGraph :=
  let g := (g.ensure_node u).ensure_node v
  if (u, v) ∈ g.edges then g else { g with edges := g.edges ++ [(u, v)] }

/-- Node label of `build_graph`. -/
def nxLabel (b : BlockRecord) : String :=
  "H:" ++ toString b.height ++ " D:" ++ toString b.difficulty ++ " #" ++
    short_hash b.block_hash

/-- Embedding of `build_graph`. -/
def build_graph (blocks : List BlockRecord) : NxDiGraph :=
  let hash_to_block := hashToBlock blocks
  let g : NxDiGraph := ⟨[], []⟩
  let g := blocks.foldl (fun g b => g.add_node b.block_hash (nxLabel b)) g
  let g := blocks.foldl (fun g b =>
    b.children.foldl (fun g c =>
      if containsKey hash_to_block c then g.add_edge b.block_hash c else g) g) g
  g

theorem add_node_edges (g : NxDiGraph) (id label : String) :
    (g.add_node id label).edges = g.edges := by
  rw [NxDiGraph.add_node]
  split <;> rfl

theorem ensure_node_edges (g : NxDiGraph) (id : String) :
    (g.ensure_node id).edges = g.edges := by
  rw [NxDiGraph.ensure_node]
  split <;> rfl

theorem ensure_ensure_edges (g : NxDiGraph) (u v : String) :
    ((g.ensure_node u).ensure_node v).edges = g.edges := by
  rw [ensure_node_edges, ensure_node_edges]

theorem add_edge_edges_mem (g : NxDiGraph) (u v : String) (x : String × String) :
    x ∈ (g.add_edge u v).edges ↔ x ∈ g.edges ∨ x = (u, v) := by
  rw [NxDiGraph.add_edge]
  split
  · next hmem =>
    rw [ensure_ensure_edges] at hmem ⊢
    constructor
    · exact Or.inl
    · rintro (hx | rfl)
      · exact hx
      · exact hmem
  · next hmem =>
    rw [ensure_ensure_edges] at hmem
    show x ∈ ((g.ensure_node u).ensure_node v).edges ++ [(u, v)] ↔ _
    rw [ensure_ensure_edges]
    simp [List.mem_append]

theorem add_edge_edges_nodup (g : NxDiGraph) (u v : String)
    (h : g.edges.Nodup) : (g.add_edge u v).edges.Nodup := by
  rw [NxDiGraph.add_edge]
  split
  · rw [ensure_ensure_edges]; exact h
  · next hmem =>
    rw [ensure_ensure_edges] at hmem
    show (((g.ensure_node u).ensure_node v).edges ++ [(u, v)]).Nodup
    rw [ensure_ensure_edges]
    refine List.Nodup.append h (List.nodup_singleton _) ?_
    intro x hx hx1
    rw [List.mem_singleton] at hx1
    exact hmem (hx1 ▸ hx)

theorem nodes_phase_edges (blocks : List BlockRecord) (g : NxDiGraph) :
    (blocks.foldl (fun g b => g.add_node b.block_hash (nxLabel b)) g).edges
      = g.edges := by
  induction blocks generalizing g with
  | nil => rfl
  | cons b bs ih => rw [List.foldl_cons, ih, add_node_edges]

theorem children_fold_edges_mem (m : String → Option BlockRecord) (u : String)
    (children : List String) (g : NxDiGraph) (x : String × String) :
    (x ∈ (children.foldl (fun g c =>
        if containsKey m c then g.add_edge u c else g) g).edges)
      ↔ x ∈ g.edges ∨ ∃ c ∈ children, containsKey m c = true ∧ x = (u, c) := by
  induction children generalizing g with
  | nil => simp
  | cons c cs ih =>
    rw [List.foldl_cons]
    by_cases hc : containsKey m c = true
    · rw [if_pos hc, ih, add_edge_edges_mem]
      constructor
      · rintro ((hx | rfl) | ⟨d, hd, hcd, rfl⟩)
        · exact Or.inl hx
        · exact Or.inr ⟨c, List.mem_cons_self c cs, hc, rfl⟩
        · exact Or.inr ⟨d, List.mem_cons_of_mem c hd, hcd, rfl⟩
      · rintro (hx | ⟨d, hd, hcd, rfl⟩)
        · exact Or.inl (Or.inl hx)
        · rcases List.mem_cons.mp hd with rfl | hd
          · exact Or.inl (Or.inr rfl)
          · exact Or.inr ⟨d, hd, hcd, rfl⟩
    · rw [if_neg hc, ih]
      constructor
      · rintro (hx | ⟨d, hd, hcd, rfl⟩)
        · exact Or.inl hx
        · exact Or.inr ⟨d, List.mem_cons_of_mem c hd, hcd, rfl⟩
      · rintro (hx | ⟨d, hd, hcd, rfl⟩)
        · exact Or.inl hx
        · rcases List.mem_cons.mp hd with rfl | hd
          · exact absurd hcd hc
          · exact Or.inr ⟨d, hd, hcd, rfl⟩

theorem children_fold_edges_nodup (m : String → Option BlockRecord) (u : String)
    (children : List String) (g : NxDiGraph) (h : g.edges.Nodup) :
    (children.foldl (fun g c =>
      if containsKey m c then g.add_edge u c else g) g).edges.Nodup := by
  induction children generalizing g with
  | nil => exact h
  | cons c cs ih =>
    rw [List.foldl_cons]
    by_cases hc : containsKey m c = true
    · rw [if_pos hc]; exact ih _ (add_edge_edges_nodup _ _ _ h)
    · rw [if_neg hc]; exact ih _ h

theorem edges_phase_mem (m : String → Option BlockRecord)
    (blocks : List BlockRecord) (g : NxDiGraph) (x : String × String) :
    (x ∈ (blocks.foldl (fun g b =>
        b.children.foldl (fun g c =>
          if containsKey m c then g.add_edge b.block_hash c else g) g) g).edges)
      ↔ x ∈ g.edges ∨ ∃ b ∈ blocks, ∃ c ∈ b.children,
          containsKey m c = true ∧ x = (b.block_hash, c) := by
  induction blocks generalizing g with
  | nil => simp
  | cons b bs ih =>
    rw [List.foldl_cons, ih, children_fold_edges_mem]
    constructor
    · rintro ((hx | ⟨c, hc, hck, rfl⟩) | ⟨d, hd, c, hc, hck, rfl⟩)
      · exact Or.inl hx
      · exact Or.inr ⟨b, List.mem_cons_self b bs, c, hc, hck, rfl⟩
      · exact Or.inr ⟨d, List.mem_cons_of_mem b hd, c, hc, hck, rfl⟩
    · rintro (hx | ⟨d, hd, c, hc, hck, rfl⟩)
      · exact Or.inl (Or.inl hx)
      · rcases List.mem_cons.mp hd with rfl | hd
        · exact Or.inl (Or.inr ⟨c, hc, hck, rfl⟩)
        · exact Or.inr ⟨d, hd, c, hc, hck, rfl⟩

theorem edges_phase_nodup (m : String → Option BlockRecord)
    (blocks : List BlockRecord) (g : NxDiGraph) (h : g.edges.Nodup) :
    (blocks.foldl (fun g b =>
      b.children.foldl (fun g c =>
        if containsKey m c then g.add_edge b.block_hash c else g) g) g).edges.Nodup := by
  induction blocks generalizing g with
  | nil => exact h
  | cons b bs ih =>
    rw [List.foldl_cons]
    exact ih _ (children_fold_edges_nodup _ _ _ _ h)

theorem build_graph_edges_mem (blocks : List BlockRecord) (x : String × String) :
    x ∈ (build_graph blocks).edges
      ↔ ∃ b ∈ blocks, ∃ c ∈ b.children,
          containsKey (hashToBlock blocks) c = true ∧ x = (b.block_hash, c) := by
  rw [build_graph]
  rw [edges_phase_mem, nodes_phase_edges]
  simp

/-- C4: an edge from a record to a child hash is materialized in the
assembled DAG exactly when the child hash is a key of the node mapping;
every edge runs parent to child with both endpoints present as keys, and
the edge set holds exactly one edge per materialized pair (networkx drops
duplicate insertions). -/
theorem build_graph_edges_characterization (blocks : List BlockRecord) :
    (∀ u v, (u, v) ∈ (build_graph blocks).edges ↔
      (∃ b ∈ blocks, b.block_hash = u ∧ v ∈ b.children)
        ∧ containsKey (hashToBlock blocks) v = true)
    ∧ (∀ u v, (u, v) ∈ (build_graph blocks).edges →
        containsKey (hashToBlock blocks) u = true
          ∧ containsKey (hashToBlock blocks) v = true)
    ∧ (build_graph blocks).edges.Nodup := by
  have hmem : ∀ u v, (u, v) ∈ (build_graph blocks).edges ↔
      (∃ b ∈ blocks, b.block_hash = u ∧ v ∈ b.children)
        ∧ containsKey (hashToBlock blocks) v = true := by
    intro u v
    rw [build_graph_edges_mem]
    constructor
    · rintro ⟨b, hb, c, hc, hck, heq⟩
      injection heq with h1 h2
      subst h1
      subst h2
      exact ⟨⟨b, hb, rfl, hc⟩, hck⟩
    · rintro ⟨⟨b, hb, rfl, hv⟩, hck⟩
      exact ⟨b, hb, v, hv, hck, rfl⟩
  refine ⟨hmem, ?_, ?_⟩
  · intro u v hx
    obtain ⟨⟨b, hb, rfl, hv⟩, hck⟩ := (hmem u v).mp hx
    exact ⟨(containsKey_hashToBlock blocks _).mpr ⟨b, hb, rfl⟩, hck⟩
  · rw [build_graph]
    apply edges_phase_nodup
    rw [nodes_phase_edges]
    exact List.nodup_nil

/-- Concrete two-record snapshot: block aa lists block bb as its child. -/
def blkA : BlockRecord :=
  { height := 2, difficulty := 7, no_difficulty_counter := 0,
    prev_block_hash := "00", block_hash := "aa", children := ["bb"] }

/-- Concrete leaf block bb. -/
def blkB : BlockRecord :=
  { height := 3, difficulty := 9, no_difficulty_counter := 1,
    prev_block_hash := "aa", block_hash := "bb", children := [] }

/-- Concrete snapshot used by the witnesses. -/
def demoBlocks : List BlockRecord := [blkA, blkB]

/-- C4 witness: the characterization applied to the concrete two-record
snapshot, where the single edge aa to bb is materialized and both endpoints
are keys of the mapping. -/
theorem build_graph_edges_characterization_witness :
    ("aa", "bb") ∈ (build_graph demoBlocks).edges
    ∧ containsKey (hashToBlock demoBlocks) "aa" = true
    ∧ containsKey (hashToBlock demoBlocks) "bb" = true := by
  have h := (build_graph_edges_characterization demoBlocks).2.1 "aa" "bb" (by decide)
  exact ⟨by decide, h.1, h.2⟩

/-! ## Layout Describer: `generate_graph` from
src/visualize_blockchain_graphviz.py

Python source (abridged):
  def generate_graph(blocks, output_file="blockchain"):
      dot = Digraph(comment="Blockchain", format="png")
      dot.attr(rankdir="TB", dpi="300", nodesep="0.4", ranksep="0.5",
               bgcolor="white")
      dot.node("padding_top", "", shape="box", width="4.0", height="0",
               style="invis")
      dot.node("padding_bottom", "", ...)
      difficulties = [b["difficulty"] for b in blocks]
      min_diff = min(difficulties)
      max_diff = max(difficulties)
      hash_to_block = \x7bb["block_hash"]: b for b in blocks\x7d
      first_hash = blocks[0]["block_hash"]
      last_hash = blocks[-1]["block_hash"]
      for block in blocks: dot.node(block["block_hash"], ...)
      for block in blocks:
          for child in block["children"]:
              if child in hash_to_block: dot.edge(...)
      dot.edge("padding_top", first_hash, style="invis")
      dot.edge(last_hash, "padding_bottom", style="invis")
      dot.render(output_file, cleanup=True)

With an empty block list, `min([])` raises ValueError (and `blocks[0]`
would raise IndexError), so the function fails before describing anything;
the failure is modelled by an `Option` result that is `none` exactly on the
paths where Python raises. -/

structure DotNode where
  name : String
  label : String
  attrs : List (String × String)
deriving DecidableEq, Repr

structure DotEdge where
  src : String
  dst : String
  attrs : List (String × String)
deriving DecidableEq, Repr

/-- Graphviz source model: statements accumulate in order (a Digraph body
is a statement list, duplicates allowed). -/
structure DotGraph where
  graph_attrs : List (String × String)
  nodes : List DotNode
  edges : List DotEdge
deriving DecidableEq, Repr

def DotGraph.node (g : DotGraph) (name label : String)
    (attrs : List (String × String)) : DotGraph :=
  { g with nodes := g.nodes ++ [⟨name, label, attrs⟩] }

def DotGraph.edge (g : DotGraph) (src dst : String)
    (attrs : List (String × String)) : DotGraph :=
  { g with edges := g.edges ++ [⟨src, dst, attrs⟩] }

/-- Node label of `generate_graph`; the two-character sequence backslash-n
is literal in the Python f-string. -/
def dotLabel (b : BlockRecord) : String :=
  "#" ++ short_hash b.block_hash ++ "\\nH:" ++ toString b.height ++
    "\\nD:" ++ toString b.difficulty ++ "\\nC:" ++ toString b.no_difficulty_counter

/-- Attributes of the two invisible padding nodes. -/
def paddingAttrs : List (String × String) :=
  [("shape", "box"), ("width", "4.0"), ("height", "0"), ("style", "invis")]

/-- Attributes of a real block node with its computed fill color. -/
def realNodeAttrs (fillcolor : String) : List (String × String) :=
  [("shape", "box"), ("style", "filled"), ("fillcolor", fillcolor),
   ("fontsize", "10"), ("width", "2.0"), ("height", "0.6"),
   ("fontname", "Helvetica")]

/-- Embedding of `generate_graph` up to the render call.  Returns `none`
when Python raises: with zero blocks, `min(difficulties)` on the empty
list raises ValueError before any output is produced. -/
def generate_graph (blocks : List BlockRecord) : Option DotGraph :=
  let dot : DotGraph :=
    { graph_attrs := [("rankdir", "TB"), ("dpi", "300"), ("nodesep", "0.4"),
        ("ranksep", "0.5"), ("bgcolor", "white")],
      nodes := [], edges := [] }
  let dot := dot.node "padding_top" "" paddingAttrs
  let dot := dot.node "padding_bottom" "" paddingAttrs
  match blocks with
  | [] => none
  | b :: bs =>
    let min_diff : ℤ := (bs.map (fun x => (x.difficulty : ℤ))).foldl min (b.difficulty : ℤ)
    let max_diff : ℤ := (bs.map (fun x => (x.difficulty : ℤ))).foldl max (b.difficulty : ℤ)
    let hash_to_block := hashToBlock (b :: bs)
    let first_hash := b.block_hash
    let last_hash := (bs.foldl (fun _ x => x) b).block_hash
    let dot := (b :: bs).foldl (fun d blk =>
      d.node blk.block_hash (dotLabel blk)
        (realNodeAttrs (difficulty_to_color (blk.difficulty : ℤ) min_diff max_diff))) dot
    let dot := (b :: bs).foldl (fun d blk =>
      blk.children.foldl (fun d child =>
        if containsKey hash_to_block child then d.edge blk.block_hash child []
        else d) d) dot
    let dot := dot.edge "padding_top" first_hash [("style", "invis")]
    let dot := dot.edge last_hash "padding_bottom" [("style", "invis")]
    some dot

/-- C3 counterexample: on the empty node set the Layout Describer does not
return a RenderSpec at all; Python raises ValueError at
`min(difficulties)`, modelled by the `none` result. -/
theorem generate_graph_empty_counterexample : generate_graph [] = none := rfl

/-- C3 (amended): on an empty decoded node set the Layout Describer
crashes (min over the empty weight list raises) instead of returning an
empty RenderSpec; it fails in exactly this case, returning a description
for every nonempty node set. -/
theorem generate_graph_none_iff_empty (blocks : List BlockRecord) :
    generate_graph blocks = none ↔ blocks = [] := by
  cases blocks with
  | nil => simp [generate_graph]
  | cons b bs => simp [generate_graph]

/-- C3 witness: the amended theorem applied at the empty list and at the
concrete two-record snapshot. -/
theorem generate_graph_none_iff_empty_witness :
    generate_graph ([] : List BlockRecord) = none
    ∧ generate_graph demoBlocks ≠ none := by
  constructor
  · exact (generate_graph_none_iff_empty []).mpr rfl
  · intro hn
    exact absurd ((generate_graph_none_iff_empty demoBlocks).mp hn) (by decide)

/-! ## Record decoder: `parse_vec_block_data` from src/unstable_blocks.py

Python source:
  block_pattern = re.compile(
      r'record\s*\x7b\s*height\s*=\s*([\d_]+)\s*:\s*nat;\s*'
      r'block_hash\s*=\s*blob\s*"([^"]+)";\s*'
      r'difficulty\s*=\s*([\d_]+)\s*:\s*nat;\s*'
      r'children\s*=\s*vec\s*\x7b([^\x7d]*)\x7d;\s*'
      r'no_difficulty_counter\s*=\s*([\d_]+)\s*:\s*nat;\s*'
      r'prev_block_hash\s*=\s*blob\s*"([^"]+)";\s*\x7d', re.DOTALL)
  for match in block_pattern.finditer(text): ... children via
  re.findall(r'blob\s*"([^"]+)"', children_raw), integers via
  int(group.replace("_", "")), hashes via parse_blob.

The pattern is deterministic: every greedy piece ([\d_]+, [^"]+, [^\x7d]*,
\s*) is followed by a character its class excludes, so a backtracking-free
recursive matcher computes exactly the regex match.  `finditer` semantics:
try a match at each position, continue after a match, advance one character
after a failure.  Python `\s` is modelled by its ASCII class (the dump is
ASCII).  One divergence, never reached by the theorems below: on a group
of underscores only, Python `int("")` raises while `pyNat` returns 0. -/

/-- Character class `\s` of the Python regex (ASCII part). -/
def isPySpace (c : Char) : Bool :=
  c == ' ' || c == '\t' || c == '\n' || c == '\r' || c == '\x0b' || c == '\x0c'

/-- Consume `\s*`: always succeeds. -/
def dropWs (s : List Char) : List Char := s.dropWhile isPySpace

/-- Consume a literal: succeeds exactly when the pattern is a prefix. -/
def lit : List Char → List Char → Option (List Char)
  | [], s => some s
  | _ :: _, [] => none
  | p :: ps, c :: cs => if p = c then lit ps cs else none

/-- Character class `[\d_]` of the regex. -/
def isDigU (c : Char) : Bool := c.isDigit || c == '_'

/-- Consume a nonempty greedy run of characters satisfying `p`, the
deterministic reading of a greedy `X+` group followed by a non-`X`
character. -/
def group1 (p : Char → Bool) (s : List Char) : Option (List Char × List Char) :=
  match s.takeWhile p with
  | [] => none
  | t => some (t, s.dropWhile p)

/-- Integer parsing `int(group.replace("_", ""))` on a digit/underscore
group. -/
def pyNat (ds : List Char) : ℕ :=
  (ds.filter (fun c => !(c == '_'))).foldl (fun n c => 10 * n + (c.toNat - 48)) 0

/-- One attempt of the inner children pattern `blob\s*"([^"]+)"`. -/
def matchBlob (s : List Char) : Option (List Char × List Char) :=
  (lit "blob".data s).bind fun s1 =>
  (lit ['"'] (dropWs s1)).bind fun s3 =>
  (group1 (fun c => !(c == '"')) s3).bind fun g =>
  (lit ['"'] g.2).bind fun s5 =>
  some (g.1, s5)

/-- Scan for the inner children pattern, `re.findall` style; the fuel is
an upper bound on the scan steps, and the initial fuel equals the input
length, which every step strictly decreases. -/
def findBlobsAux : ℕ → List Char → List (List Char)
  | 0, _ => []
  | _ + 1, [] => []
  | fuel + 1, c :: rest =>
    match matchBlob (c :: rest) with
    | some (raw, r) => raw :: findBlobsAux fuel r
    | none => findBlobsAux fuel rest

def findBlobs (s : List Char) : List (List Char) := findBlobsAux s.length s

/-- Field piece `NAME\s*=\s*([\d_]+)\s*:\s*nat;\s*` of the record pattern. -/
def matchNatField (name : List Char) (s : List Char) : Option (ℕ × List Char) :=
  (lit name s).bind fun s1 =>
  (lit ['='] (dropWs s1)).bind fun s3 =>
  (group1 isDigU (dropWs s3)).bind fun g =>
  (lit [':'] (dropWs g.2)).bind fun s7 =>
  (lit "nat;".data (dropWs s7)).bind fun s9 =>
  some (pyNat g.1, dropWs s9)

/-- Field piece `NAME\s*=\s*blob\s*"([^"]+)";\s*`, the captured group
decoded with `parse_blob`. -/
def matchBlobField (name : List Char) (s : List Char) : Option (String × List Char) :=
  (lit name s).bind fun s1 =>
  (lit ['='] (dropWs s1)).bind fun s3 =>
  (lit "blob".data (dropWs s3)).bind fun s5 =>
  (lit ['"'] (dropWs s5)).bind fun s7 =>
  (group1 (fun c => !(c == '"')) s7).bind fun g =>
  (lit ['"', ';'] g.2).bind fun s9 =>
  some (⟨parseBlobAux g.1⟩, dropWs s9)

/-- Field piece `children\s*=\s*vec\s*\x7b([^\x7d]*)\x7d;\s*`; the captured
group is scanned for blob literals, each decoded with `parse_blob`. -/
def matchChildrenField (s : List Char) : Option (List String × List Char) :=
  (lit "children".data s).bind fun s1 =>
  (lit ['='] (dropWs s1)).bind fun s3 =>
  (lit "vec".data (dropWs s3)).bind fun s5 =>
  (lit ['\x7b'] (dropWs s5)).bind fun s7 =>
  (lit ['\x7d', ';'] (s7.dropWhile (fun c => !(c == '\x7d')))).bind fun s9 =>
  some ((findBlobs (s7.takeWhile (fun c => !(c == '\x7d')))).map
    (fun l => String.mk (parseBlobAux l)), dropWs s9)

/-- One attempt of the full record pattern at the current position. -/
def matchRecord (s : List Char) : Option (BlockRecord × List Char) :=
  (lit "record".data s).bind fun s1 =>
  (lit ['\x7b'] (dropWs s1)).bind fun s3 =>
  (matchNatField "height".data (dropWs s3)).bind fun gh =>
  (matchBlobField "block_hash".data gh.2).bind fun gb =>
  (matchNatField "difficulty".data gb.2).bind fun gd =>
  (matchChildrenField gd.2).bind fun gc =>
  (matchNatField "no_difficulty_counter".data gc.2).bind fun gn =>
  (matchBlobField "prev_block_hash".data gn.2).bind fun gp =>
  (lit ['\x7d'] gp.2).bind fun s11 =>
  some ({ height := gh.1, difficulty := gd.1,
          no_difficulty_counter := gn.1, prev_block_hash := gp.1,
          block_hash := gb.1, children := gc.1 }, s11)

/-- Scan of `finditer`: try the record pattern at each position, continue
after a match, advance one character after a failure.  The fuel starts at
the input length, which every step strictly decreases. -/
def scanRecordsAux : ℕ → List Char → List BlockRecord
  | 0, _ => []
  | _ + 1, [] => []
  | fuel + 1, c :: rest =>
    match matchRecord (c :: rest) with
    | some (b, r) => b :: scanRecordsAux fuel r
    | none => scanRecordsAux fuel rest

/-- Decoder result, the dict `\x7b"data": blocks\x7d`. -/
structure BlockData where
  data : List BlockRecord
deriving DecidableEq, Repr

/-- Embedding of `parse_vec_block_data`. -/
def parse_vec_block_data (text : String) : BlockData :=
  ⟨scanRecordsAux text.data.length text.data⟩

theorem lit_eq_append : ∀ {p s r : List Char}, lit p s = some r → s = p ++ r := by
  intro p
  induction p with
  | nil =>
    intro s r h
    rw [lit] at h
    injection h with h
  | cons a ps ih =>
    intro s r h
    cases s with
    | nil => exact absurd h (by rw [lit]; intro hc; exact Option.noConfusion hc)
    | cons c cs =>
      rw [lit] at h
      by_cases hac : a = c
      · rw [if_pos hac] at h
        subst hac
        rw [List.cons_append]
        rw [← ih h]
      · rw [if_neg hac] at h
        exact absurd h (by intro hc; exact Option.noConfusion hc)

theorem lit_suffix {p s r : List Char} (h : lit p s = some r) : r <:+ s :=
  ⟨p, (lit_eq_append h).symm⟩

theorem lit_starts {p s r : List Char} (h : lit p s = some r) : p <+: s :=
  ⟨r, (lit_eq_append h).symm⟩

theorem dropWs_suffix (s : List Char) : dropWs s <:+ s :=
  ⟨s.takeWhile isPySpace, List.takeWhile_append_dropWhile _ _⟩

theorem group1_suffix {p : Char → Bool} {s t r : List Char}
    (h : group1 p s = some (t, r)) : r <:+ s := by
  rw [group1] at h
  split at h
  · exact absurd h (by intro hc; exact Option.noConfusion hc)
  · injection h with hpair
    injection hpair with h1 h2
    exact h2 ▸ ⟨s.takeWhile p, List.takeWhile_append_dropWhile _ _⟩

theorem matchNatField_parts {name s : List Char} {n : ℕ} {r : List Char}
    (h : matchNatField name s = some (n, r)) : name <+: s ∧ r <:+ s := by
  simp only [matchNatField, Option.bind_eq_some, Option.some.injEq,
    Prod.mk.injEq] at h
  obtain ⟨s1, h1, s3, h3, g, h5, s7, h7, s9, h9, hn, hr⟩ := h
  refine ⟨lit_starts h1, ?_⟩
  rw [← hr]
  exact ((((((((dropWs_suffix s9).trans (lit_suffix h9)).trans
    (dropWs_suffix s7)).trans (lit_suffix h7)).trans
    (dropWs_suffix g.2)).trans (group1_suffix (t := g.1) (r := g.2) (by rw [h5]))).trans
    (dropWs_suffix s3)).trans (lit_suffix h3)).trans
    ((dropWs_suffix s1).trans (lit_suffix h1))

theorem matchBlobField_suffix {name s : List Char} {v : String} {r : List Char}
    (h : matchBlobField name s = some (v, r)) : r <:+ s := by
  simp only [matchBlobField, Option.bind_eq_some, Option.some.injEq,
    Prod.mk.injEq] at h
  obtain ⟨s1, h1, s3, h3, s5, h5, s7, h7, g, hg, s9, h9, hv, hr⟩ := h
  rw [← hr]
  exact ((((((((dropWs_suffix s9).trans (lit_suffix h9)).trans
    (group1_suffix (t := g.1) (r := g.2) (by rw [hg]))).trans
    (lit_suffix h7)).trans (dropWs_suffix s5)).trans (lit_suffix h5)).trans
    (dropWs_suffix s3)).trans (lit_suffix h3)).trans
    ((dropWs_suffix s1).trans (lit_suffix h1))

theorem dropWhileBrace_suffix (s : List Char) :
    s.dropWhile (fun c => !(c == '\x7d')) <:+ s :=
  ⟨s.takeWhile (fun c => !(c == '\x7d')), List.takeWhile_append_dropWhile _ _⟩

theorem matchChildrenField_suffix {s : List Char} {v : List String} {r : List Char}
    (h : matchChildrenField s = some (v, r)) : r <:+ s := by
  simp only [matchChildrenField, Option.bind_eq_some, Option.some.injEq,
    Prod.mk.injEq] at h
  obtain ⟨s1, h1, s3, h3, s5, h5, s7, h7, s9, h9, hv, hr⟩ := h
  rw [← hr]
  exact (((((((dropWs_suffix s9).trans (lit_suffix h9)).trans
    (dropWhileBrace_suffix s7)).trans (lit_suffix h7)).trans
    (dropWs_suffix s5)).trans (lit_suffix h5)).trans
    ((dropWs_suffix s3).trans (lit_suffix h3))).trans
    ((dropWs_suffix s1).trans (lit_suffix h1))

theorem matchRecord_counter_occurs {s : List Char} {p : BlockRecord × List Char}
    (h : matchRecord s = some p) : "no_difficulty_counter".data <:+: s := by
  simp only [matchRecord, Option.bind_eq_some, Option.some.injEq] at h
  obtain ⟨s1, h1, s3, h3, gh, hh, gb, hb, gd, hd, gc, hc, gn, hn, gp, hp, s11, h11, hret⟩ := h
  have hnparts := matchNatField_parts (n := gn.1) (r := gn.2) (by rw [hn])
  obtain ⟨t, ht⟩ := hnparts.1
  have hs8 : gc.2 <:+ s := by
    have c1 : gc.2 <:+ gd.2 := matchChildrenField_suffix (v := gc.1) (by rw [hc])
    have c2 : gd.2 <:+ gb.2 :=
      (matchNatField_parts (n := gd.1) (r := gd.2) (by rw [hd])).2
    have c3 : gb.2 <:+ gh.2 := matchBlobField_suffix (v := gb.1) (by rw [hb])
    have c4 : gh.2 <:+ dropWs s3 :=
      (matchNatField_parts (n := gh.1) (r := gh.2) (by rw [hh])).2
    have c5 : dropWs s3 <:+ s3 := dropWs_suffix s3
    have c6 : s3 <:+ dropWs s1 := lit_suffix h3
    have c7 : dropWs s1 <:+ s1 := dropWs_suffix s1
    have c8 : s1 <:+ s := lit_suffix h1
    exact ((((((c1.trans c2).trans c3).trans c4).trans c5).trans c6).trans c7).trans c8
  obtain ⟨u, hu⟩ := hs8
  exact ⟨u, t, by rw [List.append_assoc, ht, hu]⟩

theorem scanRecordsAux_nil_of_no_counter :
    ∀ (fuel : ℕ) (s : List Char),
      ¬ ("no_difficulty_counter".data <:+: s) → scanRecordsAux fuel s = [] := by
  intro fuel
  induction fuel with
  | zero => intro s _; rfl
  | succ fuel ih =>
    intro s hs
    cases s with
    | nil => rfl
    | cons c rest =>
      rw [scanRecordsAux]
      cases hm : matchRecord (c :: rest) with
      | some p => exact absurd (matchRecord_counter_occurs hm) hs
      | none =>
        apply ih
        intro hinf
        apply hs
        obtain ⟨u, t, hut⟩ := hinf
        exact ⟨c :: u, t, by rw [List.cons_append, List.cons_append, hut]⟩

/-- The older-schema scenario record of the spec, verbatim (no
no_difficulty_counter field). -/
def oldSchemaSnapshot : String :=
  "record \x7b height = 10 : nat; block_hash = blob \"\\aa\\bb\"; difficulty = 5 : nat; children = vec \x7bblob \"\\cc\\dd\"\x7d; prev_block_hash = blob \"\\00\" \x7d"

/-- A newer-schema record with a counter field and an underscore-grouped
integer literal. -/
def newSchemaSnapshot : String :=
  "record \x7b height = 1_0 : nat; block_hash = blob \"\\aa\\bb\"; difficulty = 5 : nat; children = vec \x7bblob \"\\cc\\dd\"\x7d; no_difficulty_counter = 7 : nat; prev_block_hash = blob \"\\00\"; \x7d"

set_option maxRecDepth 10000 in
/-- C1 counterexample: the snapshot below is exactly the older-schema
record of the spec (no no_difficulty_counter field), one syntactically
valid record, so the claim demands one decoded BlockRecord with the
counter absent; the decoder yields zero records because its single
pattern requires the counter field, and the BlockRecord type it produces
always carries the counter as a concrete natural number. -/
theorem parse_vec_old_schema_counterexample :
    (parse_vec_block_data oldSchemaSnapshot).data = []
    ∧ (parse_vec_block_data oldSchemaSnapshot).data.length ≠ 1 := by
  have h : (parse_vec_block_data oldSchemaSnapshot).data = [] := by rfl
  refine ⟨h, ?_⟩
  rw [h]
  decide

/-- C1 (amended): the record decoder recognizes only the newer schema;
there is no fallback for the older shape.  Every snapshot whose text does
not contain the field name no_difficulty_counter, in particular every
snapshot made only of older-schema records, decodes to zero BlockRecords;
when a record is decoded, its no_difficulty_counter field is always
present as a natural number, never absent. -/
theorem parse_vec_requires_counter_field (text : String)
    (h : ¬ ("no_difficulty_counter".data <:+: text.data)) :
    (parse_vec_block_data text).data = [] :=
  scanRecordsAux_nil_of_no_counter _ _ h

set_option maxRecDepth 10000 in
/-- C1 witness: the amended theorem applied to the concrete older-schema
snapshot, discharging the no-occurrence hypothesis by computation. -/
theorem parse_vec_requires_counter_field_witness :
    ¬ ("no_difficulty_counter".data <:+: oldSchemaSnapshot.data)
    ∧ (parse_vec_block_data oldSchemaSnapshot).data = [] := by
  have hni : ¬ ("no_difficulty_counter".data <:+: oldSchemaSnapshot.data) := by decide
  exact ⟨hni, parse_vec_requires_counter_field oldSchemaSnapshot hni⟩

set_option maxRecDepth 10000 in
/-- Sanity check of the decoder on a newer-schema record: grouping
underscores are stripped from integers, blobs are decoded to hex and the
children vector is scanned for blob literals. -/
example : (parse_vec_block_data newSchemaSnapshot).data =
    [{ height := 10, difficulty := 5, no_difficulty_counter := 7,
       prev_block_hash := "00", block_hash := "aabb", children := ["ccdd"] }] := by rfl
